import Mathlib

/-!
# Verification of the natural-language-to-SQL core

Shallow embedding of the Python sources `database/advanced_query_builder.py`,
`database/schema_analyzer.py` and `database/ai_query_generator.py` of the
`ashishagrawall/rasa` repository, together with theorems settling the frozen
claims C1-C10 about them.

Embedding conventions:
* Python strings are Lean `String`s; character-level operations work on
  `String.data : List Char`.  `str.upper()` / `str.lower()` are modelled with
  `Char.toUpper` / `Char.toLower`, which agree with Python on ASCII text (all
  keywords, names and inputs in the claims are ASCII).
* Python's substring test `a in b` is `containsSubL a.data b.data`.
* `dict` objects that the code uses as insertion-ordered maps are modelled as
  association lists (`List (key × value)`) with in-place overwrite; `list(set(xs))`
  is modelled as `xs.dedup` (same membership; Python's set iteration order is
  unspecified, the claims only depend on membership).
* The networkx undirected graph is modelled as a list of
  (unordered table pair, attribute record) entries; `add_edge` overwrites the
  attributes when the unordered pair is already present, exactly like networkx.
* Database I/O (`session.execute`, `time.time()`) is modelled by explicit
  oracles / explicit timestamps; the list of statements issued to the database
  is returned alongside each result so that "never issued" is expressible.
-/

/-- The six ASCII whitespace characters recognised by Python's `str.strip()` /
`str.split()` and the regex class `\s`. -/
def isPySpace (c : Char) : Bool :=
  c = ' ' || c = '\t' || c = '\n' || c = '\r' || c = '\x0b' || c = '\x0c'

/-- `str.upper()` on the underlying character list (ASCII). -/
def pyUpperL (l : List Char) : List Char := l.map Char.toUpper

/-- `str.lower()` on the underlying character list (ASCII). -/
def pyLowerL (l : List Char) : List Char := l.map Char.toLower

/-- `str.lower()`. -/
def pyLower (s : String) : String := ⟨pyLowerL s.data⟩

/-- `str.strip()`: remove leading and trailing whitespace. -/
def stripList (l : List Char) : List Char :=
  ((l.dropWhile isPySpace).reverse.dropWhile isPySpace).reverse

/-- `str.strip()` packaged for `String`. -/
def pyStrip (s : String) : String := ⟨stripList s.data⟩

/-- Python's substring test `needle in hay` on character lists. -/
def containsSubL : List Char → List Char → Bool
  | needle, [] => needle.isEmpty
  | needle, c :: rest => needle.isPrefixOf (c :: rest) || containsSubL needle rest

theorem containsSubL_iff_infix {n h : List Char} :
    containsSubL n h = true ↔ n <:+: h := by
  induction h with
  | nil =>
    simp [containsSubL, List.isEmpty_iff]
  | cons c rest ih =>
    simp [containsSubL, Bool.or_eq_true, ih, List.infix_cons_iff]

theorem length_dropWhile_le (p : Char → Bool) (l : List Char) :
    (l.dropWhile p).length ≤ l.length :=
  (List.dropWhile_suffix p).sublist.length_le

/-- A nonempty, whitespace-free infix survives `str.strip()`. -/
theorem infix_stripList {k l : List Char}
    (h : k <:+: l) (hk : ∀ c ∈ k, isPySpace c = false) (hne : k ≠ []) :
    k <:+: stripList l := by
  have key : ∀ (m : List Char), k <:+: m → k <:+: m.dropWhile isPySpace := by
    intro m hm
    induction m with
    | nil => simpa using hm
    | cons c t iht =>
      rcases List.infix_cons_iff.mp hm with hpre | hinf
      · have hc : c ∈ k := by
          rcases hpre with ⟨s, hs⟩
          cases k with
          | nil => exact absurd rfl hne
          | cons k0 ks =>
            have : k0 = c := by
              have := congrArg (fun x => x.head?) hs
              simpa using this
            simp [this]
        have : isPySpace c = false := hk c hc
        rw [List.dropWhile_cons, this]
        simpa using hm
      · have := iht hinf
        rw [List.dropWhile_cons]
        by_cases hc : isPySpace c = true
        · simpa [hc] using this
        · simp only [hc]
          exact (List.infix_cons_iff).mpr (Or.inr hinf)
  have h1 : k <:+: l.dropWhile isPySpace := key l h
  have h2 : k.reverse <:+: (l.dropWhile isPySpace).reverse :=
    List.reverse_infix.mpr h1
  have hk' : ∀ c ∈ k.reverse, isPySpace c = false := by
    intro c hc; exact hk c (List.mem_reverse.mp hc)
  have hne' : k.reverse ≠ [] := by
    intro hcon; exact hne (by simpa using congrArg List.reverse hcon)
  have key2 : ∀ (m : List Char), k.reverse <:+: m →
      k.reverse <:+: m.dropWhile isPySpace := by
    intro m hm
    induction m with
    | nil => simpa using hm
    | cons c t iht =>
      rcases List.infix_cons_iff.mp hm with hpre | hinf
      · have hc : c ∈ k.reverse := by
          rcases hpre with ⟨s, hs⟩
          cases hkr : k.reverse with
          | nil => exact absurd hkr hne'
          | cons k0 ks =>
            rw [hkr] at hs
            have : k0 = c := by
              have := congrArg (fun x => x.head?) hs
              simpa using this
            simp [hkr, this]
        have : isPySpace c = false := hk' c hc
        rw [List.dropWhile_cons, this]
        simpa using hm
      · have := iht hinf
        rw [List.dropWhile_cons]
        by_cases hc : isPySpace c = true
        · simpa [hc] using this
        · simp only [hc]
          exact (List.infix_cons_iff).mpr (Or.inr hinf)
  have h3 := key2 _ h2
  have h4 : k <:+: ((l.dropWhile isPySpace).reverse.dropWhile isPySpace).reverse := by
    have := List.reverse_infix.mpr h3
    simpa using this
  exact h4

/-- `re.split(pattern+, s)`: split on maximal runs of separator characters,
keeping an empty field for a leading or trailing run (Python `re.split` with a
`+`-quantified class). -/
def splitOnRuns (p : Char → Bool) : List Char → List (List Char)
  | [] => [[]]
  | c :: rest =>
    if p c then
      match rest with
      | [] => [[], []]
      | c2 :: _ => if p c2 then splitOnRuns p rest else [] :: splitOnRuns p rest
    else
      match splitOnRuns p rest with
      | [] => [[c]]
      | w :: ws => (c :: w) :: ws

/-- `str.split()` (no argument): whitespace-run split with empty fields
discarded. -/
def pySplitWords (s : String) : List String :=
  ((splitOnRuns isPySpace s.data).filter (fun w => !w.isEmpty)).map List.asString

/-- Helper for the quoted-literal regex `'([^']*)'|"([^"]*)"`: scan for the
closing quote `q`, returning the enclosed characters and the remainder after
the closing quote. -/
def findClose (q : Char) : List Char → Option (List Char × List Char)
  | [] => none
  | c :: rest =>
    if c = q then some ([], rest)
    else (findClose q rest).map (fun ab => (c :: ab.1, ab.2))

theorem findClose_length {q : Char} :
    ∀ {l a b : List Char}, findClose q l = some (a, b) → b.length < l.length := by
  intro l
  induction l with
  | nil => intro a b h; simp [findClose] at h
  | cons c rest ih =>
    intro a b h
    simp only [findClose] at h
    by_cases hc : c = q
    · rw [if_pos hc] at h
      injection h with h2
      have hb : rest = b := congrArg Prod.snd h2
      rw [← hb]
      simp
    · rw [if_neg hc] at h
      rcases Option.map_eq_some'.mp h with ⟨ab, hab, heq⟩
      have hb : ab.2 = b := congrArg Prod.snd heq
      rw [← hb]
      exact Nat.lt_succ_of_lt (ih (a := ab.1) (b := ab.2) (by rw [hab]))

/-- The non-overlapping matches of the Python regex `'([^']*)'|"([^"]*)"` as
used by `AIQueryGenerator._extract_entities` (the enclosed text of each
single- or double-quoted literal, scanned left to right). -/
def extractQuoted : List Char → List (List Char)
  | [] => []
  | c :: rest =>
    if c = '\'' || c = '"' then
      match hfc : findClose c rest with
      | some (inside, after) => inside :: extractQuoted after
      | none => extractQuoted rest
    else
      extractQuoted rest
termination_by l => l.length
decreasing_by
  · simp only [List.length_cons]
    exact Nat.lt_succ_of_lt (findClose_length hfc)
  · simp
  · simp

/-- Word characters of the (ASCII) regex class `\w`, used for the `\b`
boundaries of the number regex. -/
def isWordChar (c : Char) : Bool := c.isAlphanum || c = '_'

theorem dropWhile_cons_length {p : Char → Bool} {X r : List Char} {c : Char}
    (h : X.dropWhile p = c :: r) : r.length + 1 ≤ X.length := by
  have hle := length_dropWhile_le p X
  rw [h] at hle
  simpa using hle

/-- The non-overlapping matches of the Python regex `\b\d+(?:\.\d+)?\b` scanned
left to right (`prevWord` records whether the previous character is a word
character, i.e. whether a `\b` can hold at the current position). -/
def extractNumbers (prevWord : Bool) : List Char → List (List Char)
  | [] => []
  | c :: rest =>
    if c.isDigit && !prevWord then
      match hr : rest.dropWhile Char.isDigit with
      | '.' :: r2 =>
        if (r2.takeWhile Char.isDigit).isEmpty then
          (c :: rest.takeWhile Char.isDigit) ::
            extractNumbers true (rest.dropWhile Char.isDigit)
        else if (r2.dropWhile Char.isDigit).isEmpty
            || !isWordChar ((r2.dropWhile Char.isDigit).headD ' ') then
          (c :: rest.takeWhile Char.isDigit ++ '.' :: r2.takeWhile Char.isDigit) ::
            extractNumbers true (r2.dropWhile Char.isDigit)
        else
          (c :: rest.takeWhile Char.isDigit) ::
            extractNumbers true (rest.dropWhile Char.isDigit)
      | [] => [c :: rest.takeWhile Char.isDigit]
      | c2 :: r2 =>
        if isWordChar c2 then
          extractNumbers true (c2 :: r2)
        else
          (c :: rest.takeWhile Char.isDigit) :: extractNumbers true (c2 :: r2)
    else
      extractNumbers (isWordChar c) rest
termination_by l => l.length
decreasing_by
  all_goals simp only [List.length_cons]
  all_goals first
    | exact Nat.lt_succ_of_le (length_dropWhile_le _ _)
    | (have h1 := dropWhile_cons_length hr
       have h2 := length_dropWhile_le Char.isDigit r2
       omega)
    | (have h1 := dropWhile_cons_length hr
       omega)
    | omega

/-- Attributes stored on a relationship edge
(`relationship_type` / `local_columns` / `foreign_columns` in
`SchemaAnalyzer._build_relationship_graph`). -/
structure EdgeData where
  relationship_type : String
  local_columns : List String
  foreign_columns : List String
deriving DecidableEq, Repr

/-- The networkx undirected graph `SchemaAnalyzer.relationship_graph`:
a list of entries keyed by an unordered pair of table names, at most one entry
per unordered pair (maintained by `addEdge`). -/
abbrev RelGraph : Type := List ((String × String) × EdgeData)

/-- Whether the stored pair `k` denotes the same unordered pair as `(a, b)`. -/
def pairEq (k : String × String) (a b : String) : Bool :=
  (k.1 = a && k.2 = b) || (k.1 = b && k.2 = a)

/-- `networkx.Graph.has_edge`. -/
def hasEdge (g : RelGraph) (a b : String) : Bool :=
  g.any (fun e => pairEq e.1 a b)

/-- `networkx.Graph.get_edge_data` (shared attribute record, orientation
independent). -/
def getEdgeData (g : RelGraph) (a b : String) : Option EdgeData :=
  (g.find? (fun e => pairEq e.1 a b)).map (fun e => e.2)

/-- `networkx.Graph.add_edge`: replaces the attributes when the unordered pair
already has an edge, otherwise appends a new edge. -/
def addEdge (g : RelGraph) (a b : String) (d : EdgeData) : RelGraph :=
  if hasEdge g a b then
    g.map (fun e => if pairEq e.1 a b then (e.1, d) else e)
  else
    g ++ [((a, b), d)]

/-- `networkx.Graph.neighbors`, in edge-insertion order. -/
def neighbors (g : RelGraph) (t : String) : List String :=
  g.foldl (fun acc e =>
    if e.1.1 = t then acc ++ [e.1.2]
    else if e.1.2 = t then acc ++ [e.1.1]
    else acc) []

/-- One introspected column (`inspector.get_columns` entry): name, rendered
type, primary-key flag. -/
structure ColumnInfo where
  name : String
  type : String
  primary_key : Bool
deriving DecidableEq, Repr

/-- One introspected foreign key (`inspector.get_foreign_keys` entry). -/
structure FKInfo where
  constrained_columns : List String
  referred_table : String
  referred_columns : List String
deriving DecidableEq, Repr

/-- The introspected metadata a `SchemaAnalyzer` reads: the ordered table list
and, per table, its columns and declared foreign keys. -/
structure DbSchema where
  tables : List String
  columns : String → List ColumnInfo
  foreign_keys : String → List FKInfo

/-- The foreign-key pass of `SchemaAnalyzer._build_relationship_graph`: one
`foreign_key` edge per declared foreign key (nodes carry no data and are left
implicit; an isolated node simply has no incident edges). -/
def fkPhase (s : DbSchema) : RelGraph :=
  s.tables.foldl (fun g table =>
    (s.foreign_keys table).foldl (fun g2 fk =>
      addEdge g2 table fk.referred_table
        ⟨"foreign_key", fk.constrained_columns, fk.referred_columns⟩) g) []

/-- Python `s[:-n]` for a character list. -/
def dropRight (l : List Char) (n : Nat) : List Char := l.take (l.length - n)

/-- The candidate target tables tried for a `<word>_id` column in
`SchemaAnalyzer._detect_implicit_relationships`: the word itself, `+s`, `+es`,
and `y→ies` (the last entry is `None` in Python when the word does not end in
`y`; `None` and the empty string are skipped by the loop's truthiness test). -/
def implicitCandidates (potential : List Char) : List (Option (List Char)) :=
  [some potential, some (potential ++ ['s']), some (potential ++ ['e', 's']),
   if potential.getLast? = some 'y' then some (potential.dropLast ++ ['i', 'e', 's'])
   else none]

/-- Processing of one column in
`SchemaAnalyzer._detect_implicit_relationships`: if its lowered name ends in
`_id`, resolve the stem against the table list (first candidate wins, skipping
`None`/empty) and add an `implicit` edge unless the pair already has one. -/
def implicitStep (tables : List String) (table : String) (g : RelGraph)
    (colName : String) : RelGraph :=
  let cn := pyLowerL colName.data
  if "_id".data.isSuffixOf cn then
    let potential := dropRight cn 3
    match (implicitCandidates potential).find? (fun o =>
        match o with
        | some w => !w.isEmpty && tables.contains w.asString
        | none => false) with
    | some (some w) =>
      if hasEdge g table w.asString then g
      else addEdge g table w.asString ⟨"implicit", [cn.asString], ["id"]⟩
    | _ => g
  else g

/-- `SchemaAnalyzer._detect_implicit_relationships`, folded over every table
and column, starting from the foreign-key graph. -/
def implicitPhase (s : DbSchema) (g0 : RelGraph) : RelGraph :=
  s.tables.foldl (fun g table =>
    (s.columns table).foldl (fun g2 col => implicitStep s.tables table g2 col.name) g) g0

/-- `SchemaAnalyzer._build_relationship_graph`: foreign-key edges first, then
naming-pattern (implicit) edges. -/
def build_relationship_graph (s : DbSchema) : RelGraph :=
  implicitPhase s (fkPhase s)

/-- The fixed business-alias table of `SchemaAnalyzer._detect_table_aliases`. -/
def business_aliases : List (String × List String) :=
  [("customers", ["cust", "customer", "client"]),
   ("products", ["prod", "product", "item"]),
   ("orders", ["ord", "order", "purchase"]),
   ("employees", ["emp", "employee", "staff"]),
   ("transactions", ["trans", "transaction", "txn"]),
   ("invoices", ["inv", "invoice", "bill"]),
   ("payments", ["pay", "payment", "pmt"]),
   ("addresses", ["addr", "address", "location"])]

/-- The `clean_name` computed by `SchemaAnalyzer._detect_table_aliases`:
lower-case, then strip a `tbl_` prefix, then strip a `_table` suffix. -/
def cleanName (table : String) : List Char :=
  let c := pyLowerL table.data
  let c := if "tbl_".data.isPrefixOf c then c.drop 4 else c
  if "_table".data.isSuffixOf c then dropRight c 6 else c

/-- The separator class of `re.split(r'[_\s]+', clean_name)`. -/
def isUnderscoreOrSpace (c : Char) : Bool := c = '_' || isPySpace c

/-- `SchemaAnalyzer._detect_table_aliases` for one table (the dict
`table_aliases` maps every table name to this list).  Python's
`list(set(aliases))` is modelled as `dedup` (identical membership).  Note:
Python's `''.join(word[0] for word in words)` raises `IndexError` when a split
word is empty (e.g. a leading underscore in the cleaned name); the embedding
skips empty words, and theorems about alias derivation hypothesise that every
split word is nonempty. -/
def detect_table_aliases (table : String) : List String :=
  let clean := cleanName table
  let abbrevs : List String :=
    if 4 < clean.length then
      [(clean.take 4).asString] ++
        (let words := splitOnRuns isUnderscoreOrSpace clean
         if 1 < words.length then [(words.filterMap List.head?).asString] else [])
    else []
  let aliases := abbrevs ++ business_aliases.foldl (fun acc fa =>
    if containsSubL fa.1.data clean || containsSubL clean fa.1.data then
      acc ++ fa.2
    else acc) []
  aliases.dedup

/-- Breadth-first search step for `nx.shortest_path`: the queue holds paths in
reverse (current node first); `visited` prevents re-enqueueing.  Tie-breaking
follows the embedded adjacency order (networkx's own tie-breaking is its
adjacency insertion order; no claim depends on which shortest path is
returned). -/
def bfsAux (g : RelGraph) (dst : String) :
    Nat → List (List String) → List String → Option (List String)
  | 0, _, _ => none
  | _ + 1, [], _ => none
  | fuel + 1, path :: queue, visited =>
    match path with
    | [] => bfsAux g dst fuel queue visited
    | cur :: _ =>
      if cur = dst then some path.reverse
      else
        let ns := (neighbors g cur).filter (fun n => !visited.contains n)
        bfsAux g dst fuel (queue ++ ns.map (fun n => n :: path)) (visited ++ ns)

/-- `nx.shortest_path(graph, src, dst)` as an `Option` (`none` stands for the
`NetworkXNoPath` / `NodeNotFound` exceptions, which the callers in the source
swallow). -/
def shortestPath (g : RelGraph) (src dst : String) : Option (List String) :=
  if src = dst then some [src]
  else bfsAux g dst (2 * g.length + 2) [[src]] [src]

/-- One hop of `SchemaAnalyzer._get_path_join_info`. -/
structure PathHop where
  from_table : String
  to_table : String
  join_condition : EdgeData
deriving DecidableEq, Repr

/-- `SchemaAnalyzer._get_path_join_info`. -/
def get_path_join_info (g : RelGraph) (path : List String) : List PathHop :=
  (List.range (path.length - 1)).foldl (fun acc i =>
    let t1 := path.getD i ""
    let t2 := path.getD (i + 1) ""
    match getEdgeData g t1 t2 with
    | some d => acc ++ [⟨t1, t2, d⟩]
    | none => acc) []

/-- The heterogeneous `join_info` field of a relationship record: an edge
attribute record for a `direct` relationship, a hop list for an `indirect`
one. -/
inductive RelJoinInfo where
  | edge (d : EdgeData)
  | hops (l : List PathHop)
deriving DecidableEq, Repr

/-- One relationship record returned by `SchemaAnalyzer.find_relationships`. -/
structure Relationship where
  rtype : String
  path : List String
  join_info : RelJoinInfo
deriving DecidableEq, Repr

/-- `SchemaAnalyzer.find_relationships`: the direct edge first (if any), then
an indirect record when the shortest path has more than two nodes. -/
def find_relationships (g : RelGraph) (t1 t2 : String) : List Relationship :=
  let direct : List Relationship :=
    match getEdgeData g t1 t2 with
    | some d => [⟨"direct", [t1, t2], .edge d⟩]
    | none => []
  let indirect : List Relationship :=
    match shortestPath g t1 t2 with
    | some p =>
      if 2 < p.length then [⟨"indirect", p, .hops (get_path_join_info g p)⟩]
      else []
    | none => []
  direct ++ indirect

/-- `SchemaAnalyzer.get_related_tables`: `(direct, indirect)`; the indirect
list collects neighbors-of-neighbors that are neither the origin nor a direct
neighbor, without deduplication. -/
def get_related_tables (g : RelGraph) (table : String) (max_depth : Nat) :
    List String × List String :=
  let direct := neighbors g table
  let indirect :=
    if 1 < max_depth then
      direct.foldl (fun acc n =>
        (neighbors g n).foldl (fun acc2 second =>
          if second ≠ table && !direct.contains second then acc2 ++ [second]
          else acc2) acc) []
    else []
  (direct, indirect)

/-- The fixed `intent_column_mapping` of
`SchemaAnalyzer.suggest_columns_for_query`. -/
def intent_column_mapping : List (String × List String) :=
  [("count", ["id"]),
   ("list", ["id", "name", "title", "description"]),
   ("search", ["name", "title", "description", "email"]),
   ("financial", ["amount", "price", "cost", "total", "value"]),
   ("temporal", ["created_at", "updated_at", "date", "timestamp"]),
   ("status", ["status", "state", "active", "enabled"])]

/-- `SchemaAnalyzer.suggest_columns_for_query`: one `table.column` entry per
(column, matching pattern) pair. -/
def suggest_columns_for_query (s : DbSchema) (tables : List String)
    (intent : String) : List String :=
  let relevant := ((intent_column_mapping.find? (fun m => m.1 = intent)).map
    (fun m => m.2)).getD ["id", "name"]
  tables.foldl (fun acc table =>
    (s.columns table).foldl (fun acc2 col =>
      relevant.foldl (fun acc3 pat =>
        if containsSubL pat.data (pyLowerL col.name.data) then
          acc3 ++ [table ++ "." ++ col.name]
        else acc3) acc2) acc) []

/-- One entity dict produced by `AIQueryGenerator._extract_entities`
(`original` is present only on table entities, `table` only on column
entities). -/
structure Entity where
  etype : String
  value : String
  original : Option String := none
  table : Option String := none
  confidence : ℚ
deriving DecidableEq, Repr

/-- The analysis dict produced by `AIQueryGenerator._analyze_natural_query`.
Confidence values are modelled as exact rationals (the Python floats `0.5`,
`0.2`, ... are used only through sums and comparisons in the claims). -/
structure QueryAnalysis where
  original_query : String
  intent : String
  entities : List Entity
  keywords : List String
  aggregation : Option String
  confidence : ℚ
deriving DecidableEq, Repr

/-- One entry of `AIQueryGenerator._load_query_patterns`. -/
structure QueryPattern where
  keywords : List String
  template : String
deriving DecidableEq, Repr

/-- `AIQueryGenerator._load_query_patterns` (insertion order of the Python
dict literal). -/
def query_patterns : List (String × QueryPattern) :=
  [("count", ⟨["how many", "count", "total", "number of"],
    "SELECT COUNT(*) FROM \x7btables\x7d \x7bjoins\x7d \x7bwhere\x7d"⟩),
   ("list", ⟨["show", "list", "get", "display", "find"],
    "SELECT \x7bcolumns\x7d FROM \x7btables\x7d \x7bjoins\x7d \x7bwhere\x7d \x7blimit\x7d"⟩),
   ("aggregate", ⟨["sum", "average", "max", "min", "total"],
    "SELECT \x7baggregate\x7d(\x7bcolumn\x7d) FROM \x7btables\x7d \x7bjoins\x7d \x7bwhere\x7d"⟩),
   ("group_by", ⟨["by", "group", "each", "per"],
    "SELECT \x7bgroup_columns\x7d, \x7baggregate\x7d FROM \x7btables\x7d \x7bjoins\x7d \x7bwhere\x7d GROUP BY \x7bgroup_columns\x7d"⟩),
   ("join", ⟨["with", "and", "related", "associated"],
    "SELECT \x7bcolumns\x7d FROM \x7btables\x7d \x7bjoins\x7d \x7bwhere\x7d"⟩)]

/-- `AIQueryGenerator._build_intent_keywords` (never read by the analyzed
paths, kept for completeness). -/
def intent_keywords : List (String × List String) :=
  [("financial", ["price", "cost", "amount", "revenue", "sales", "payment", "invoice"]),
   ("temporal", ["date", "time", "when", "created", "updated", "recent", "last"]),
   ("status", ["active", "inactive", "enabled", "disabled", "status", "state"]),
   ("location", ["address", "city", "country", "location", "region"]),
   ("personal", ["name", "email", "phone", "contact", "customer", "user"]),
   ("business", ["order", "product", "service", "company", "department"])]

/-- `AIQueryGenerator._extract_entities`: table mentions (direct then alias,
per table), then column mentions, then quoted literals, then bare numbers. -/
def extract_entities (s : DbSchema) (query : String) : List Entity :=
  let ql := pyLowerL query.data
  let tableEntities := s.tables.foldl (fun acc table =>
    let acc2 := if containsSubL (pyLowerL table.data) ql then
        acc ++ [⟨"table", table, some table, none, 9/10⟩]
      else acc
    (detect_table_aliases table).foldl (fun a al =>
      if containsSubL (pyLowerL al.data) ql then
        a ++ [⟨"table", table, some al, none, 8/10⟩]
      else a) acc2) []
  let colEntities := s.tables.foldl (fun acc table =>
    (s.columns table).foldl (fun a col =>
      if containsSubL (pyLowerL col.name.data) ql then
        a ++ [⟨"column", col.name, none, some table, 7/10⟩]
      else a) acc) tableEntities
  let quoted := (extractQuoted query.data).foldl (fun a v =>
    a ++ [⟨"value", v.asString, none, none, 9/10⟩]) colEntities
  (extractNumbers false query.data).foldl (fun a n =>
    a ++ [⟨"number", n.asString, none, none, 8/10⟩]) quoted

/-- One keyword test of the intent-detection loop in
`AIQueryGenerator._analyze_natural_query`: on a match, set the intent, add 0.2
to the confidence and record the keyword. -/
def intentStep (ql : List Char) (intentName : String)
    (st : String × ℚ × List String) (kw : String) : String × ℚ × List String :=
  if containsSubL kw.data ql then (intentName, st.2.1 + 1/5, st.2.2 ++ [kw])
  else st

/-- The full intent-detection loop over `query_patterns` (later categories
override earlier ones on a match). -/
def detectIntentFold (ql : List Char) (init : String × ℚ × List String) :
    String × ℚ × List String :=
  query_patterns.foldl (fun st p => p.2.keywords.foldl (intentStep ql p.1) st) init

/-- The aggregation-function list of `_analyze_natural_query`. -/
def agg_functions : List String := ["count", "sum", "avg", "average", "max", "min"]

/-- The aggregation-detection loop: records the last matching function and
forces intent `aggregate` for the non-`count` ones. -/
def aggFold (ql : List Char) (intent0 : String) : Option String × String :=
  agg_functions.foldl (fun st f =>
    if containsSubL f.data ql then
      (some f,
       if (["sum", "avg", "average", "max", "min"] : List String).contains f then
         "aggregate"
       else st.2)
    else st) (none, intent0)

/-- The grouping words checked last by `_analyze_natural_query`. -/
def group_words : List String := ["by", "group", "each", "per"]

/-- `AIQueryGenerator._analyze_natural_query`: default intent `list` and
confidence 0.5, then the intent-keyword loop, entity extraction, the
aggregation override, and finally the group-by override. -/
def analyze_natural_query (s : DbSchema) (query : String) : QueryAnalysis :=
  let ql := pyLowerL query.data
  let det := detectIntentFold ql ("list", 1/2, [])
  let entities := extract_entities s query
  let agg := aggFold ql det.1
  let intent :=
    if group_words.any (fun w => containsSubL w.data ql) then "group_by"
    else agg.2
  ⟨query, intent, entities, det.2.2, agg.1, det.2.1⟩

/-- The join clause emitted by `AIQueryGenerator._build_joins` for a direct
relationship.  (Python indexes `local_columns[0]` / `foreign_columns[0]`
directly and would raise `IndexError` on an empty list — never the case for
edges this embedding builds; the embedding emits nothing in that case.) -/
def joinClauseOfEdge (main table : String) (d : EdgeData) : List String :=
  match d.local_columns, d.foreign_columns with
  | lc :: _, fc :: _ =>
    ["LEFT JOIN " ++ table ++ " ON " ++ main ++ "." ++ lc ++ " = " ++ table ++ "." ++ fc]
  | _, _ => []

/-- One hop of the indirect-relationship branch of
`AIQueryGenerator._build_joins` (hop `j` along the stored path). -/
def indirectHopClause (path : List String) (hops : List PathHop)
    (js : List String) (j : Nat) : List String :=
  let fromT := path.getD j ""
  let toT := path.getD (j + 1) ""
  match hops.get? j with
  | some hop =>
    match hop.join_condition.local_columns, hop.join_condition.foreign_columns with
    | lc :: _, fc :: _ =>
      js ++ ["LEFT JOIN " ++ toT ++ " ON " ++ fromT ++ "." ++ lc ++ " = " ++ toT ++ "." ++ fc]
    | _, _ => js
  | none => js

/-- Processing of one non-anchor table in `AIQueryGenerator._build_joins`. -/
def buildJoinsStep (g : RelGraph) (main : String) (joins : List String)
    (table : String) : List String :=
  match find_relationships g main table with
  | [] => joins
  | rel :: _ =>
    if rel.rtype = "direct" then
      match rel.join_info with
      | .edge d => joins ++ joinClauseOfEdge main table d
      | .hops _ => joins
    else if rel.rtype = "indirect" then
      match rel.join_info with
      | .hops hops =>
        (List.range (rel.path.length - 1)).foldl (indirectHopClause rel.path hops) joins
      | .edge _ => joins
    else joins

/-- `AIQueryGenerator._build_joins`. -/
def build_joins (g : RelGraph) (tables : List String) : List String :=
  if tables.length ≤ 1 then []
  else (tables.drop 1).foldl (buildJoinsStep g (tables.headD "")) []

/-- The numeric type names of `AIQueryGenerator._find_numeric_columns`. -/
def numeric_types : List String := ["INTEGER", "FLOAT", "DECIMAL", "NUMERIC", "REAL"]

/-- `AIQueryGenerator._find_numeric_columns`. -/
def find_numeric_columns (s : DbSchema) (tables : List String) : List String :=
  tables.foldl (fun acc table =>
    (s.columns table).foldl (fun a col =>
      if numeric_types.contains (pyUpperL col.type.data).asString then
        a ++ [table ++ "." ++ col.name]
      else a) acc) []

/-- `AIQueryGenerator._extract_columns`: explicitly mentioned column entities,
else the intent-based suggestions, then the first primary-key-like column of
every table prepended, truncated to ten entries. -/
def extract_columns (s : DbSchema) (analysis : QueryAnalysis)
    (tables : List String) : List String :=
  let columns := analysis.entities.foldl (fun acc e =>
    if e.etype = "column" then
      acc ++ [(e.table.getD (tables.headD "")) ++ "." ++ e.value]
    else acc) []
  let columns :=
    if columns.isEmpty then suggest_columns_for_query s tables analysis.intent
    else columns
  let columns := tables.foldl (fun cols table =>
    match (s.columns table).find? (fun col =>
        col.primary_key
          || (["id", "pk"] : List String).contains (pyLowerL col.name.data).asString) with
    | some col =>
      let pk := table ++ "." ++ col.name
      if cols.contains pk then cols else pk :: cols
    | none => cols) columns
  columns.take 10

/-- `AIQueryGenerator._construct_sql`. -/
def construct_sql (s : DbSchema) (intent : String)
    (tables columns joins conditions : List String)
    (analysis : QueryAnalysis) : String :=
  if tables.isEmpty then "SELECT 1"
  else
    let select_clause :=
      if intent = "count" then "SELECT COUNT(*)"
      else if intent = "aggregate" ∧ analysis.aggregation.isSome then
        match find_numeric_columns s tables with
        | nc :: _ =>
          "SELECT " ++ (pyUpperL (analysis.aggregation.getD "").data).asString
            ++ "(" ++ nc ++ ")"
        | [] => "SELECT COUNT(*)"
      else if !columns.isEmpty then "SELECT " ++ String.intercalate ", " columns
      else "SELECT " ++ tables.headD "" ++ ".*"
    let from_clause := "FROM " ++ tables.headD ""
    let join_clause := if !joins.isEmpty then " " ++ String.intercalate " " joins else ""
    let where_clause :=
      if !conditions.isEmpty then " WHERE " ++ String.intercalate " AND " conditions
      else ""
    let limit_clause :=
      if intent = "list" ∧ containsSubL "all".data (pyLowerL analysis.original_query.data) = false then
        " LIMIT 10"
      else ""
    pyStrip (select_clause ++ " " ++ from_clause ++ join_clause ++ where_clause ++ limit_clause)

/-- The blocked keywords of `AdvancedQueryBuilder._is_safe_query`. -/
def dangerous_keywords : List String :=
  ["DROP", "DELETE", "UPDATE", "INSERT", "ALTER",
   "CREATE", "TRUNCATE", "GRANT", "REVOKE"]

/-- `AdvancedQueryBuilder._is_safe_query`: upper-case and strip, reject when
any dangerous keyword occurs as a substring, reject unless the result starts
with `SELECT`. -/
def is_safe_query (sql : String) : Bool :=
  let sqlUpper := stripList (pyUpperL sql.data)
  if dangerous_keywords.any (fun kw => containsSubL kw.data sqlUpper) then false
  else if !("SELECT".data.isPrefixOf sqlUpper) then false
  else true

/-- The outcome of one `session.execute` call: result rows with column names
and a rowcount, or a raised exception. -/
inductive RunOutcome where
  | ok (rows : List (List String)) (columns : List String) (rowcount : Int)
  | raises (msg : String)

/-- The database the builder talks to, as an oracle: `scalarCount` answers the
`SELECT COUNT(*) FROM t` probes of `_identify_large_tables` (`none` models a
raised exception, which that method swallows per table), `run` answers
`session.execute` for the main statement. -/
structure DB where
  scalarCount : String → Option Int
  run : String → RunOutcome

/-- The result dict of `AdvancedQueryBuilder.execute_generated_sql`. -/
inductive ExecOutcome where
  | failure (error : String) (sql_attempted : Option String)
  | selectOk (data : List (List String)) (columns : List String)
      (row_count : Nat) (sql_executed : String)
  | modifyOk (affected_rows : Int) (sql_executed : String)
deriving DecidableEq, Repr

/-- The `success` field of an `execute_generated_sql` result dict. -/
def ExecOutcome.success : ExecOutcome → Bool
  | .failure _ _ => false
  | _ => true

/-- `AdvancedQueryBuilder._identify_large_tables`: probe every table with a
count query (each probe is issued to the database; a raised probe is logged
and skipped) and keep those with more than 10000 rows.  Returns the large
tables and the probe statements issued. -/
def identify_large_tables (db : DB) (tables : List String) :
    List String × List String :=
  tables.foldl (fun st table =>
    let q := "SELECT COUNT(*) FROM " ++ table
    match db.scalarCount q with
    | none => (st.1, st.2 ++ [q])
    | some c => (if 10000 < c then st.1 ++ [table] else st.1, st.2 ++ [q])) ([], [])

/-- `AdvancedQueryBuilder._optimize_query` (with `_add_index_hints` the
identity, as in the source): append ` LIMIT 100` when the statement has no
`LIMIT` and no `COUNT(` and some involved table is large.  Returns the
optimized statement and the probe statements issued. -/
def optimize_query (db : DB) (sql : String) (tables : List String) :
    String × List String :=
  if containsSubL "LIMIT".data (pyUpperL sql.data) = false
      ∧ containsSubL "COUNT(".data (pyUpperL sql.data) = false then
    let lt := identify_large_tables db tables
    (if lt.1.isEmpty then sql else sql ++ " LIMIT 100", lt.2)
  else (sql, [])

/-- `AdvancedQueryBuilder.execute_generated_sql`: the safety gate, then query
optimization, then execution.  The second component is the list of statements
issued to the database (probes plus the executed statement); it is empty
exactly when nothing was ever sent. -/
def execute_generated_sql (db : DB) (sql : String) (tables : List String) :
    ExecOutcome × List String :=
  if is_safe_query sql = false then
    (.failure "Query contains potentially unsafe operations" none, [])
  else
    let opt := optimize_query db sql tables
    match db.run opt.1 with
    | .raises m => (.failure m (some sql), opt.2 ++ [opt.1])
    | .ok rows cols rc =>
      if "SELECT".data.isPrefixOf (pyUpperL (stripList opt.1.data)) then
        (.selectOk rows cols rows.length opt.1, opt.2 ++ [opt.1])
      else
        (.modifyOk rc opt.1, opt.2 ++ [opt.1])

/-- One value of the `query_cache` dict of `AdvancedQueryBuilder`.  The
`time.time()` float timestamp is modelled as an exact rational. -/
structure CacheEntry where
  sql : String
  timestamp : ℚ
  success_count : Nat
deriving DecidableEq, Repr

/-- The `query_cache` dict: insertion-ordered, keyed by normalized query
text. -/
abbrev Cache : Type := List (String × CacheEntry)

/-- Python dict assignment `cache[k] = e`: overwrite in place when the key is
present, else append. -/
def cacheInsert (c : Cache) (k : String) (e : CacheEntry) : Cache :=
  if c.any (fun p => p.1 = k) then
    c.map (fun p => if p.1 = k then (k, e) else p)
  else c ++ [(k, e)]

/-- One comparison step of `min(..., key=lambda k: cache[k]['timestamp'])`
(Python's `min` keeps the earliest entry on ties). -/
def minByTimestamp (best : Option (String × CacheEntry)) (p : String × CacheEntry) :
    Option (String × CacheEntry) :=
  match best with
  | none => some p
  | some b => if p.2.timestamp < b.2.timestamp then some p else some b

/-- `min(cache.keys(), key=lambda k: cache[k]['timestamp'])`: the first key in
iteration order holding the minimal timestamp. -/
def oldestKey (c : Cache) : Option String :=
  (c.foldl minByTimestamp none).map (fun p => p.1)

/-- `AdvancedQueryBuilder._cache_query` at time `now`: store/overwrite the
entry under the lower-cased, stripped query text with an incremented success
count, then, if more than 100 entries remain, delete the entry with the oldest
timestamp. -/
def cache_query (c : Cache) (natural_query sql : String) (now : ℚ) : Cache :=
  let key := (stripList (pyLowerL natural_query.data)).asString
  let old := ((c.find? (fun p => p.1 = key)).map (fun p => p.2.success_count)).getD 0
  let c1 := cacheInsert c key ⟨sql, now, old + 1⟩
  if 100 < c1.length then
    match oldestKey c1 with
    | some k => c1.filter (fun p => p.1 ≠ k)
    | none => c1
  else c1

/-! ## Concrete fixtures used by the claims -/

/-- The two-table scenario of the spec: `orders` has a `customer_id` column
and no declared foreign key. -/
def ocSchema : DbSchema :=
  { tables := ["orders", "customers"],
    columns := fun t =>
      if t = "orders" then
        [⟨"id", "INTEGER", true⟩, ⟨"customer_id", "INTEGER", false⟩,
         ⟨"total", "DECIMAL", false⟩]
      else if t = "customers" then
        [⟨"id", "INTEGER", true⟩, ⟨"name", "VARCHAR", false⟩]
      else [],
    foreign_keys := fun _ => [] }

/-- The same two tables with the relationship declared as a foreign key
instead. -/
def ocFkSchema : DbSchema :=
  { tables := ["orders", "customers"],
    columns := fun t =>
      if t = "orders" then
        [⟨"id", "INTEGER", true⟩, ⟨"customer_id", "INTEGER", false⟩]
      else if t = "customers" then
        [⟨"id", "INTEGER", true⟩, ⟨"name", "VARCHAR", false⟩]
      else [],
    foreign_keys := fun t =>
      if t = "orders" then [⟨["customer_id"], "customers", ["id"]⟩]
      else [] }

/-- A diamond of foreign keys: `a–b`, `a–c`, `b–d`, `c–d`; `d` is reachable
from `a` through two different direct neighbors. -/
def diamondSchema : DbSchema :=
  { tables := ["a", "b", "c", "d"],
    columns := fun _ => [⟨"id", "INTEGER", true⟩],
    foreign_keys := fun t =>
      if t = "a" then [⟨["b_ref"], "b", ["id"]⟩, ⟨["c_ref"], "c", ["id"]⟩]
      else if t = "b" then [⟨["d_ref"], "d", ["id"]⟩]
      else if t = "c" then [⟨["d_ref"], "d", ["id"]⟩]
      else [] }

/-- A database oracle that answers nothing (every probe raises); used to
instantiate theorems whose conclusion is independent of the database. -/
def dbStub : DB := ⟨fun _ => none, fun _ => .raises "no database"⟩

/-! ## C1: the safety gate -/

theorem dangerous_keywords_wf :
    ∀ kw ∈ dangerous_keywords, kw.data ≠ [] ∧ ∀ c ∈ kw.data, isPySpace c = false := by
  decide

/-- C1: any statement whose upper-cased text contains one of the dangerous
keywords, or whose upper-cased trimmed text does not begin with `SELECT`, is
rejected by `is_safe_query`, and `execute_generated_sql` then returns the
unsafe-operation failure without issuing any statement to the database; in
particular `"SELECT * FROM users; DROP TABLE users"` is rejected and
`"SELECT * FROM users"` is accepted. -/
theorem c1_safety_gate :
    (∀ (db : DB) (sql : String) (tables : List String),
      ((∃ kw ∈ dangerous_keywords, containsSubL kw.data (pyUpperL sql.data) = true) ∨
          "SELECT".data.isPrefixOf (stripList (pyUpperL sql.data)) = false) →
        is_safe_query sql = false ∧
        execute_generated_sql db sql tables =
          (.failure "Query contains potentially unsafe operations" none, [])) ∧
    is_safe_query "SELECT * FROM users; DROP TABLE users" = false ∧
    is_safe_query "SELECT * FROM users" = true := by
  refine ⟨?_, by decide, by decide⟩
  intro db sql tables h
  have hsafe : is_safe_query sql = false := by
    unfold is_safe_query
    rcases h with ⟨kw, hkw, hsub⟩ | hpre
    · have hprops := dangerous_keywords_wf kw hkw
      have hinf : kw.data <:+: pyUpperL sql.data := containsSubL_iff_infix.mp hsub
      have hinf2 : kw.data <:+: stripList (pyUpperL sql.data) :=
        infix_stripList hinf hprops.2 hprops.1
      have hany : dangerous_keywords.any
          (fun k => containsSubL k.data (stripList (pyUpperL sql.data))) = true := by
        rw [List.any_eq_true]
        exact ⟨kw, hkw, containsSubL_iff_infix.mpr hinf2⟩
      simp [hany]
    · cases hany : dangerous_keywords.any
          (fun k => containsSubL k.data (stripList (pyUpperL sql.data))) with
      | true => simp [hany]
      | false => simp [hany, hpre]
  refine ⟨hsafe, ?_⟩
  unfold execute_generated_sql
  rw [hsafe]
  simp

theorem c1_safety_gate_witness :
    is_safe_query "SELECT * FROM users; DROP TABLE users" = false ∧
    execute_generated_sql dbStub "SELECT * FROM users; DROP TABLE users" [] =
      (.failure "Query contains potentially unsafe operations" none, []) :=
  (c1_safety_gate.1 dbStub "SELECT * FROM users; DROP TABLE users" []
    (Or.inl ⟨"DROP", by decide, by decide⟩))

/-! ## C2: relationship-graph invariants -/

theorem foldl_preserve {σ α : Type} {P : σ → Prop} {f : σ → α → σ}
    (h : ∀ s a, P s → P (f s a)) :
    ∀ (l : List α) (s : σ), P s → P (l.foldl f s) := by
  intro l
  induction l with
  | nil => intro s hs; simpa using hs
  | cons a t ih =>
    intro s hs
    simp only [List.foldl_cons]
    exact ih _ (h s a hs)

theorem pairEq_cases {k : String × String} {a b : String} (h : pairEq k a b = true) :
    (k.1 = a ∧ k.2 = b) ∨ (k.1 = b ∧ k.2 = a) := by
  simpa [pairEq, Bool.or_eq_true, Bool.and_eq_true, decide_eq_true_eq] using h

theorem pairEq_comm (j : String × String) (x y : String) :
    pairEq j x y = pairEq j y x := by
  simp [pairEq, Bool.or_comm]

theorem pairEq_of_pairEq_pair {k : String × String} {x y a b : String}
    (hxy : pairEq (x, y) a b = true) (hk : pairEq k a b = true) :
    pairEq k x y = true := by
  rcases pairEq_cases hxy with ⟨h1, h2⟩ | ⟨h1, h2⟩
  · have h1' : x = a := h1
    have h2' : y = b := h2
    rw [h1', h2']
    exact hk
  · have h1' : x = b := h1
    have h2' : y = a := h2
    rw [h1', h2', pairEq_comm]
    exact hk

theorem hasEdge_false_elim {g : RelGraph} {x y : String}
    (h : hasEdge g x y = false) : ∀ e ∈ g, pairEq e.1 x y = false := by
  intro e he
  unfold hasEdge at h
  cases hb : pairEq e.1 x y with
  | false => rfl
  | true =>
    exfalso
    have : g.any (fun e => pairEq e.1 x y) = true :=
      List.any_eq_true.mpr ⟨e, he, hb⟩
    rw [h] at this
    exact Bool.false_ne_true this

/-- Number of stored edges on the unordered pair `{a, b}`. -/
def edgeCount (g : RelGraph) (a b : String) : Nat :=
  (g.filter (fun e => pairEq e.1 a b)).length

/-- The graph invariant: at most one edge per unordered table pair. -/
def atMostOne (g : RelGraph) : Prop := ∀ a b, edgeCount g a b ≤ 1

theorem atMostOne_addEdge {g : RelGraph} (hg : atMostOne g) (x y : String)
    (d : EdgeData) : atMostOne (addEdge g x y d) := by
  intro a b
  unfold addEdge
  by_cases he : hasEdge g x y = true
  · rw [if_pos he]
    have hmap : (g.map (fun e => if pairEq e.1 x y then (e.1, d) else e)).filter
        (fun e => pairEq e.1 a b) =
        (g.filter (fun e => pairEq e.1 a b)).map
          (fun e => if pairEq e.1 x y then (e.1, d) else e) := by
      rw [List.filter_map]
      congr 1
      apply List.filter_congr
      intro e he2
      by_cases hp : pairEq e.1 x y = true <;> simp [hp]
    unfold edgeCount
    rw [hmap, List.length_map]
    exact hg a b
  · rw [if_neg he]
    have hne : hasEdge g x y = false := Bool.eq_false_iff.mpr he
    unfold edgeCount
    rw [List.filter_append, List.length_append]
    by_cases hp : pairEq (x, y) a b = true
    · have hzero : g.filter (fun e => pairEq e.1 a b) = [] := by
        rw [List.filter_eq_nil_iff]
        intro e hme hcon
        have hexy : pairEq e.1 x y = true := pairEq_of_pairEq_pair hp hcon
        have hall := hasEdge_false_elim hne e hme
        rw [hall] at hexy
        exact Bool.false_ne_true hexy
      rw [hzero]
      have hone : List.filter (fun e => pairEq e.1 a b) [((x, y), d)] = [((x, y), d)] := by
        simp [List.filter_cons, hp]
      rw [hone]
      simp
    · have hnone : List.filter (fun e => pairEq e.1 a b) [((x, y), d)] = [] := by
        simp [List.filter_cons, hp]
      rw [hnone]
      simpa using hg a b

theorem atMostOne_implicitStep {tables : List String} {table : String}
    {g : RelGraph} (hg : atMostOne g) (colName : String) :
    atMostOne (implicitStep tables table g colName) := by
  simp only [implicitStep]
  split
  · split
    · split
      · exact hg
      · exact atMostOne_addEdge hg _ _ _
    · exact hg
  · exact hg

theorem atMostOne_build (s : DbSchema) : atMostOne (build_relationship_graph s) := by
  have h0 : atMostOne ([] : RelGraph) := by
    intro a b
    simp [edgeCount]
  have hfk : atMostOne (fkPhase s) := by
    unfold fkPhase
    apply foldl_preserve ?_ s.tables [] h0
    intro g table hg
    apply foldl_preserve ?_ (s.foreign_keys table) g hg
    intro g2 fk hg2
    exact atMostOne_addEdge hg2 _ _ _
  unfold build_relationship_graph implicitPhase
  apply foldl_preserve ?_ s.tables (fkPhase s) hfk
  intro g table hg
  apply foldl_preserve ?_ (s.columns table) g hg
  intro g2 col hg2
  exact atMostOne_implicitStep hg2 _

theorem getEdgeData_addEdge_of_not_hasEdge {g : RelGraph} {x y : String}
    {d2 : EdgeData} (he : hasEdge g x y = false) (a b : String) {d : EdgeData}
    (h : getEdgeData g a b = some d) :
    getEdgeData (addEdge g x y d2) a b = some d := by
  unfold addEdge
  rw [if_neg (by simp [he])]
  unfold getEdgeData at h ⊢
  rw [List.find?_append]
  rcases Option.map_eq_some'.mp h with ⟨e, hfind, hval⟩
  rw [hfind]
  simp [hval]

theorem getEdgeData_implicitStep {tables : List String} {table : String}
    {g : RelGraph} {colName : String} {a b : String} {d : EdgeData}
    (h : getEdgeData g a b = some d) :
    getEdgeData (implicitStep tables table g colName) a b = some d := by
  simp only [implicitStep]
  split
  · split
    · split
      · exact h
      · rename_i hne
        exact getEdgeData_addEdge_of_not_hasEdge (Bool.eq_false_iff.mpr hne) a b h
    · exact h
  · exact h

/-- C2: the built relationship graph carries at most one edge per unordered
table pair; an edge present after the foreign-key pass (in particular every
`foreign_key` edge) is never overwritten by the naming-pattern pass; and on
the `orders`/`customers` schema with a `customer_id` column and no declared
foreign key, the graph holds the inferred `implicit` edge with column pair
(`customer_id`, `id`). -/
theorem c2_relationship_graph :
    ∀ (s : DbSchema) (a b : String) (d : EdgeData),
      edgeCount (build_relationship_graph s) a b ≤ 1 ∧
      (getEdgeData (fkPhase s) a b = some d →
        getEdgeData (build_relationship_graph s) a b = some d) ∧
      getEdgeData (build_relationship_graph ocSchema) "orders" "customers" =
        some ⟨"implicit", ["customer_id"], ["id"]⟩ := by
  intro s a b d
  refine ⟨atMostOne_build s a b, ?_, by decide⟩
  intro h
  unfold build_relationship_graph implicitPhase
  apply foldl_preserve (P := fun g => getEdgeData g a b = some d) ?_ s.tables (fkPhase s) h
  intro g table hg
  apply foldl_preserve (P := fun g => getEdgeData g a b = some d) ?_ (s.columns table) g hg
  intro g2 col hg2
  exact getEdgeData_implicitStep hg2

theorem c2_relationship_graph_witness :
    getEdgeData (build_relationship_graph ocFkSchema) "orders" "customers" =
      some ⟨"foreign_key", ["customer_id"], ["id"]⟩ :=
  (c2_relationship_graph ocFkSchema "orders" "customers"
    ⟨"foreign_key", ["customer_id"], ["id"]⟩).2.1 (by decide)

/-! ## C3: bounded cache with oldest-timestamp eviction -/

theorem minByTimestamp_spec :
    ∀ (l : List (String × CacheEntry)) (b : String × CacheEntry),
      ∃ q, l.foldl minByTimestamp (some b) = some q ∧ (q = b ∨ q ∈ l) ∧
        q.2.timestamp ≤ b.2.timestamp ∧ ∀ p ∈ l, q.2.timestamp ≤ p.2.timestamp := by
  intro l
  induction l with
  | nil =>
    intro b
    exact ⟨b, rfl, Or.inl rfl, le_refl _, by simp⟩
  | cons p t ih =>
    intro b
    simp only [List.foldl_cons, minByTimestamp]
    by_cases hlt : p.2.timestamp < b.2.timestamp
    · rw [if_pos hlt]
      rcases ih p with ⟨q, hfold, hmem, hle, hall⟩
      refine ⟨q, hfold, ?_, ?_, ?_⟩
      · rcases hmem with h | h
        · exact Or.inr (by simp [h])
        · exact Or.inr (List.mem_cons_of_mem _ h)
      · exact le_trans hle (le_of_lt hlt)
      · intro r hr
        rcases List.mem_cons.mp hr with h | h
        · rw [h]; exact hle
        · exact hall r h
    · rw [if_neg hlt]
      rcases ih b with ⟨q, hfold, hmem, hle, hall⟩
      refine ⟨q, hfold, ?_, hle, ?_⟩
      · rcases hmem with h | h
        · exact Or.inl h
        · exact Or.inr (List.mem_cons_of_mem _ h)
      · intro r hr
        rcases List.mem_cons.mp hr with h | h
        · rw [h]; exact le_trans hle (not_lt.mp hlt)
        · exact hall r h

theorem oldestKey_append_new {c : Cache} (k : String) (e : CacheEntry)
    (hne : c ≠ []) (hnew : ∀ p ∈ c, p.2.timestamp < e.timestamp) :
    ∃ m, m ∈ c ∧ (∀ p ∈ c, m.2.timestamp ≤ p.2.timestamp) ∧
      oldestKey (c ++ [(k, e)]) = some m.1 := by
  cases c with
  | nil => exact absurd rfl hne
  | cons x xs =>
    rcases minByTimestamp_spec xs x with ⟨q, hfold, hmem, hle, hall⟩
    have hq_mem : q ∈ x :: xs := by
      rcases hmem with h | h
      · simp [h]
      · exact List.mem_cons_of_mem _ h
    have hmin : ∀ p ∈ x :: xs, q.2.timestamp ≤ p.2.timestamp := by
      intro p hp
      rcases List.mem_cons.mp hp with h | h
      · rw [h]; exact hle
      · exact hall p h
    refine ⟨q, hq_mem, hmin, ?_⟩
    unfold oldestKey
    rw [List.cons_append, List.foldl_cons]
    have h0 : minByTimestamp none x = some x := rfl
    rw [h0, List.foldl_append, hfold]
    have hqe : q.2.timestamp < e.timestamp := hnew q hq_mem
    simp [minByTimestamp, not_lt.mpr (le_of_lt hqe)]

theorem cache_eq_of_keyEq {c : Cache} (hnd : (c.map Prod.fst).Nodup)
    {p q : String × CacheEntry} (hp : p ∈ c) (hq : q ∈ c) (h : p.1 = q.1) :
    p = q := by
  induction c with
  | nil => simp at hp
  | cons a t ih =>
    rw [List.map_cons, List.nodup_cons] at hnd
    rcases List.mem_cons.mp hp with hp1 | hp1 <;>
      rcases List.mem_cons.mp hq with hq1 | hq1
    · rw [hp1, hq1]
    · exfalso
      apply hnd.1
      rw [← hp1, h]
      exact List.mem_map_of_mem Prod.fst hq1
    · exfalso
      apply hnd.1
      rw [← hq1, ← h]
      exact List.mem_map_of_mem Prod.fst hp1
    · exact ih hnd.2 hp1 hq1

theorem cache_find?_eq {c : Cache} (hnd : (c.map Prod.fst).Nodup)
    {m : String × CacheEntry} (hm : m ∈ c) :
    c.find? (fun p => p.1 = m.1) = some m := by
  induction c with
  | nil => simp at hm
  | cons a t ih =>
    rw [List.map_cons, List.nodup_cons] at hnd
    rcases List.mem_cons.mp hm with h | h
    · rw [h]
      exact List.find?_cons_of_pos _ (by simp)
    · have hne : (a.1 = m.1) = False := by
        simp only [eq_iff_iff, iff_false]
        intro hcon
        apply hnd.1
        rw [hcon]
        exact List.mem_map_of_mem Prod.fst h
      rw [List.find?_cons_of_neg _ (by simp [hne]), ih hnd.2 h]

theorem cache_filter_ne_length {c : Cache} (hnd : (c.map Prod.fst).Nodup)
    {m : String × CacheEntry} (hm : m ∈ c) :
    (c.filter (fun p => p.1 ≠ m.1)).length = c.length - 1 := by
  induction c with
  | nil => simp at hm
  | cons a t ih =>
    rw [List.map_cons, List.nodup_cons] at hnd
    rcases List.mem_cons.mp hm with h | h
    · subst h
      have hdrop : List.filter (fun p => p.1 ≠ m.1) (m :: t) =
          t.filter (fun p => p.1 ≠ m.1) := by
        simp [List.filter_cons]
      have hall : t.filter (fun p => p.1 ≠ m.1) = t := by
        rw [List.filter_eq_self]
        intro p hp
        simp only [ne_eq, decide_not, Bool.not_eq_eq_eq_not, Bool.not_true,
          decide_eq_false_iff_not]
        intro hcon
        apply hnd.1
        rw [← hcon]
        exact List.mem_map_of_mem Prod.fst hp
      rw [hdrop, hall]
      simp
    · have hkeep : (a.1 ≠ m.1) := by
        intro hcon
        apply hnd.1
        rw [hcon]
        exact List.mem_map_of_mem Prod.fst h
      have hlen : 1 ≤ t.length := by
        cases t with
        | nil => simp at h
        | cons _ _ => simp
      rw [List.filter_cons, if_pos (by simp [hkeep])]
      rw [List.length_cons, ih hnd.2 h, List.length_cons]
      omega

/-- C3: on a 100-entry cache whose entries have pairwise distinct timestamps,
all older than the recording time, caching a success under a fresh normalized
key leaves exactly 100 entries, with precisely the previously
oldest-timestamped entry evicted and the new entry appended with success count
1; caching under an existing key overwrites that entry in place, increments
its success counter, and evicts nothing. -/
theorem c3_cache_eviction :
    ∀ (c : Cache) (natural_query sql : String) (now : ℚ),
      c.length = 100 →
      (c.map Prod.fst).Nodup →
      (c.map (fun p => p.2.timestamp)).Nodup →
      (∀ p ∈ c, p.2.timestamp < now) →
      ((stripList (pyLowerL natural_query.data)).asString ∉ c.map Prod.fst →
        (cache_query c natural_query sql now).length = 100 ∧
        ∃ m, m ∈ c ∧ (∀ p ∈ c, m.2.timestamp ≤ p.2.timestamp) ∧
          cache_query c natural_query sql now =
            c.filter (fun p => p.1 ≠ m.1) ++
              [((stripList (pyLowerL natural_query.data)).asString,
                ⟨sql, now, 1⟩)]) ∧
      ((stripList (pyLowerL natural_query.data)).asString ∈ c.map Prod.fst →
        cache_query c natural_query sql now =
          c.map (fun p =>
            if p.1 = (stripList (pyLowerL natural_query.data)).asString then
              ((stripList (pyLowerL natural_query.data)).asString,
               (⟨sql, now, p.2.success_count + 1⟩ : CacheEntry))
            else p) ∧
        (cache_query c natural_query sql now).length = 100) := by
  intro c natural_query sql now hlen hndk hndt hold
  set key := (stripList (pyLowerL natural_query.data)).asString with hkey
  constructor
  · intro hnotin
    have hfind : c.find? (fun p => p.1 = key) = none := by
      rw [List.find?_eq_none]
      intro p hp
      simp only [decide_eq_true_eq]
      intro hcon
      exact hnotin (hcon ▸ List.mem_map_of_mem Prod.fst hp)
    have hany : c.any (fun p => p.1 = key) = false := by
      cases hca : c.any (fun p => p.1 = key) with
      | false => rfl
      | true =>
        exfalso
        rcases List.any_eq_true.mp hca with ⟨p, hp, hpk⟩
        exact hnotin ((decide_eq_true_eq.mp hpk) ▸ List.mem_map_of_mem Prod.fst hp)
    have hc1 : cacheInsert c key ⟨sql, now, 1⟩ = c ++ [(key, ⟨sql, now, 1⟩)] := by
      unfold cacheInsert
      rw [if_neg (by simp [hany])]
    have hcne : c ≠ [] := by
      intro hcon
      rw [hcon] at hlen
      simp at hlen
    rcases oldestKey_append_new key ⟨sql, now, 1⟩ hcne
      (by intro p hp; exact hold p hp) with ⟨m, hm, hmin, holdest⟩
    have hc1len : (c ++ [(key, (⟨sql, now, 1⟩ : CacheEntry))]).length = 101 := by
      rw [List.length_append, hlen]
      rfl
    have hres : cache_query c natural_query sql now =
        (c ++ [(key, (⟨sql, now, 1⟩ : CacheEntry))]).filter (fun p => p.1 ≠ m.1) := by
      simp only [cache_query, ← hkey, hfind, Option.map_none', Option.getD_none,
        Nat.zero_add, hc1, hc1len]
      rw [if_pos (by omega), holdest]
    have hkeyne : key ≠ m.1 := by
      intro hcon
      exact hnotin (hcon ▸ List.mem_map_of_mem Prod.fst hm)
    have hsplit : (c ++ [(key, (⟨sql, now, 1⟩ : CacheEntry))]).filter
        (fun p => p.1 ≠ m.1) =
        c.filter (fun p => p.1 ≠ m.1) ++ [(key, ⟨sql, now, 1⟩)] := by
      rw [List.filter_append]
      congr 1
      simp [List.filter_cons, hkeyne]
    refine ⟨?_, ⟨m, hm, hmin, ?_⟩⟩
    · rw [hres, hsplit, List.length_append, cache_filter_ne_length hndk hm, hlen]
      simp
    · rw [hres, hsplit]
  · intro hin
    rcases List.mem_map.mp hin with ⟨m, hm, hmk⟩
    have hfind : c.find? (fun p => p.1 = key) = some m := by
      have hf := cache_find?_eq hndk hm
      rw [hmk] at hf
      exact hf
    have hany : c.any (fun p => p.1 = key) = true :=
      List.any_eq_true.mpr ⟨m, hm, by simp [hmk]⟩
    have hc1 : cacheInsert c key ⟨sql, now, m.2.success_count + 1⟩ =
        c.map (fun p =>
          if p.1 = key then (key, ⟨sql, now, m.2.success_count + 1⟩) else p) := by
      unfold cacheInsert
      rw [if_pos (by simp [hany])]
    have hres : cache_query c natural_query sql now =
        c.map (fun p =>
          if p.1 = key then (key, ⟨sql, now, m.2.success_count + 1⟩) else p) := by
      simp only [cache_query, ← hkey, hfind, Option.map_some', Option.getD_some, hc1]
      rw [if_neg (by rw [List.length_map, hlen]; omega)]
    constructor
    · rw [hres]
      apply List.map_congr_left
      intro p hp
      by_cases hpk : p.1 = key
      · have hpm : p = m := cache_eq_of_keyEq hndk hp hm (by rw [hpk, ← hmk])
        rw [if_pos hpk, if_pos hpk, hpm]
      · rw [if_neg hpk, if_neg hpk]
    · rw [hres, List.length_map, hlen]

/-- A concrete 100-entry cache with distinct keys and timestamps. -/
def cache100 : Cache :=
  (List.range 100).map (fun i => ("key" ++ Nat.repr i, ⟨"SELECT 1", (i : ℚ), 1⟩))

theorem c3_cache_eviction_witness :
    (cache_query cache100 "New Query" "SELECT 2" 1000).length = 100 :=
  ((c3_cache_eviction cache100 "New Query" "SELECT 2" 1000 (by decide) (by decide)
    (by decide) (by decide)).1 (by decide)).1

/-! ## C4, C5: intent overrides and confidence accounting -/

/-- A schema with no tables (entity extraction finds nothing). -/
def emptySchema : DbSchema := ⟨[], fun _ => [], fun _ => []⟩

theorem analyze_intent_eq (s : DbSchema) (query : String) :
    (analyze_natural_query s query).intent =
      (if group_words.any (fun w => containsSubL w.data (pyLowerL query.data)) then
        "group_by"
      else (aggFold (pyLowerL query.data)
        (detectIntentFold (pyLowerL query.data) ("list", 1/2, [])).1).2) := rfl

theorem analyze_confidence_eq (s : DbSchema) (query : String) :
    (analyze_natural_query s query).confidence =
      (detectIntentFold (pyLowerL query.data) ("list", 1/2, [])).2.1 := rfl

/-- C4: whenever the lowered input contains an aggregation word and a grouping
word, the analyzer's final intent is `group_by` — the group-by override is
applied after the aggregation override and wins. -/
theorem c4_groupby_overrides_aggregate :
    ∀ (s : DbSchema) (query : String),
      (∃ f ∈ (["sum", "avg", "max", "min", "average"] : List String),
        containsSubL f.data (pyLowerL query.data) = true) →
      (∃ w ∈ group_words, containsSubL w.data (pyLowerL query.data) = true) →
      (analyze_natural_query s query).intent = "group_by" := by
  intro s query _ hgrp
  have hany : group_words.any (fun w => containsSubL w.data (pyLowerL query.data)) = true := by
    rcases hgrp with ⟨w, hw, hcw⟩
    exact List.any_eq_true.mpr ⟨w, hw, hcw⟩
  rw [analyze_intent_eq, if_pos hany]

theorem c4_groupby_overrides_aggregate_witness :
    (analyze_natural_query emptySchema "sum per day").intent = "group_by" :=
  c4_groupby_overrides_aggregate emptySchema "sum per day"
    ⟨"sum", by decide, by decide⟩ ⟨"per", by decide, by decide⟩

theorem foldl_add_shift {α : Type} (f : α → Nat) :
    ∀ (l : List α) (n : Nat),
      l.foldl (fun acc a => acc + f a) n = n + l.foldl (fun acc a => acc + f a) 0 := by
  intro l
  induction l with
  | nil => simp
  | cons a t ih =>
    intro n
    rw [List.foldl_cons, List.foldl_cons, ih, ih (0 + f a)]
    omega

theorem intentStep_confidence (ql : List Char) (intentName : String) :
    ∀ (kws : List String) (st : String × ℚ × List String),
      ((kws.foldl (intentStep ql intentName) st).2.1) =
        st.2.1 + ((kws.filter (fun kw => containsSubL kw.data ql)).length : ℚ) * (1/5) := by
  intro kws
  induction kws with
  | nil => intro st; simp
  | cons kw t ih =>
    intro st
    rw [List.foldl_cons, List.filter_cons]
    by_cases h : containsSubL kw.data ql = true
    · rw [if_pos (by simp [h])]
      have hstep : intentStep ql intentName st kw =
          (intentName, st.2.1 + 1/5, st.2.2 ++ [kw]) := by
        unfold intentStep
        rw [if_pos h]
      rw [hstep, ih]
      simp only [List.length_cons]
      push_cast
      ring
    · rw [if_neg (by simp [h])]
      have hstep : intentStep ql intentName st kw = st := by
        unfold intentStep
        rw [if_neg h]
      rw [hstep, ih]

theorem foldl_patterns_confidence (ql : List Char) :
    ∀ (pats : List (String × QueryPattern)) (st : String × ℚ × List String),
      ((pats.foldl (fun st p => p.2.keywords.foldl (intentStep ql p.1) st) st).2.1) =
        st.2.1 + ((pats.foldl (fun n p =>
          n + (p.2.keywords.filter (fun kw => containsSubL kw.data ql)).length) 0 : Nat) : ℚ)
          * (1/5) := by
  intro pats
  induction pats with
  | nil => intro st; simp
  | cons p t ih =>
    intro st
    rw [List.foldl_cons, List.foldl_cons, ih, intentStep_confidence,
      foldl_add_shift (fun p => ((p : String × QueryPattern).2.keywords.filter
        (fun kw => containsSubL kw.data ql)).length) t,
      foldl_add_shift (fun p => ((p : String × QueryPattern).2.keywords.filter
        (fun kw => containsSubL kw.data ql)).length) t
        (0 + (p.2.keywords.filter (fun kw => containsSubL kw.data ql)).length)]
    push_cast
    ring

/-- The number of (intent, keyword) pairs of `query_patterns` whose keyword
occurs (case-insensitively) in the input. -/
def matched_keyword_pairs (query : String) : Nat :=
  query_patterns.foldl (fun n p =>
    n + (p.2.keywords.filter
      (fun kw => containsSubL kw.data (pyLowerL query.data))).length) 0

/-- C5: the analyzer's confidence is exactly 0.5 plus 0.2 per matched
(intent, keyword) pair, with no cap; on the input `"show count total"`, which
matches four pairs, the confidence exceeds 1. -/
theorem c5_confidence_uncapped :
    ∀ (s : DbSchema) (query : String),
      (analyze_natural_query s query).confidence =
        1/2 + (matched_keyword_pairs query : ℚ) * (1/5) ∧
      1 < (analyze_natural_query emptySchema "show count total").confidence := by
  have hgen : ∀ (s : DbSchema) (query : String),
      (analyze_natural_query s query).confidence =
        1/2 + (matched_keyword_pairs query : ℚ) * (1/5) := by
    intro s query
    rw [analyze_confidence_eq]
    unfold detectIntentFold matched_keyword_pairs
    rw [foldl_patterns_confidence (pyLowerL query.data) query_patterns ("list", 1/2, [])]
  intro s query
  refine ⟨hgen s query, ?_⟩
  rw [hgen emptySchema "show count total"]
  have h4 : matched_keyword_pairs "show count total" = 4 := by decide
  rw [h4]
  norm_num

/-! ## C6: LIMIT 10 for list intent -/

theorem data_append_head {X : String} {c : Char} (h : ∃ z, X.data = c :: z)
    (B : String) : ∃ z, (X ++ B).data = c :: z := by
  rcases h with ⟨z, hz⟩
  refine ⟨z ++ B.data, ?_⟩
  rw [String.data_append, hz]
  rfl

theorem select_head (q : String) : ∃ z, ("SELECT " ++ q).data = 'S' :: z := by
  refine ⟨"ELECT ".data ++ q.data, ?_⟩
  rw [String.data_append]
  rfl

theorem suffix_stripList_limit {A : String} {c : Char} (hc : isPySpace c = false)
    (h : ∃ z, A.data = c :: z) :
    " LIMIT 10".data <:+ (pyStrip (A ++ " LIMIT 10")).data := by
  rcases h with ⟨z, hz⟩
  show " LIMIT 10".data <:+ stripList ((A ++ " LIMIT 10").data)
  rw [String.data_append, hz, List.cons_append]
  unfold stripList
  rw [List.dropWhile_cons, if_neg (by simp [hc])]
  have hrev : (c :: (z ++ " LIMIT 10".data)).reverse
      = '0' :: ("1 TIMIL ".data ++ (z.reverse ++ [c])) := by
    simp [List.reverse_cons, List.reverse_append, List.append_assoc,
      show (" LIMIT 10".data).reverse = '0' :: "1 TIMIL ".data from rfl]
  rw [hrev, List.dropWhile_cons, if_neg (by decide), ← hrev, List.reverse_reverse,
    ← List.cons_append]
  exact List.suffix_append _ _

theorem construct_sql_list_eq (s : DbSchema) (t : String)
    (ts columns joins conditions : List String) (analysis : QueryAnalysis) :
    construct_sql s "list" (t :: ts) columns joins conditions analysis =
      pyStrip ((if !columns.isEmpty then "SELECT " ++ String.intercalate ", " columns
          else "SELECT " ++ t ++ ".*") ++ " " ++ ("FROM " ++ t)
        ++ (if !joins.isEmpty then " " ++ String.intercalate " " joins else "")
        ++ (if !conditions.isEmpty then " WHERE " ++ String.intercalate " AND " conditions
            else "")
        ++ (if ("list" : String) = "list" ∧ containsSubL "all".data
              (pyLowerL analysis.original_query.data) = false then " LIMIT 10"
            else "")) := rfl

theorem construct_sql_join_eq (s : DbSchema) (t : String)
    (ts columns joins conditions : List String) (analysis : QueryAnalysis) :
    construct_sql s "join" (t :: ts) columns joins conditions analysis =
      pyStrip ((if !columns.isEmpty then "SELECT " ++ String.intercalate ", " columns
          else "SELECT " ++ t ++ ".*") ++ " " ++ ("FROM " ++ t)
        ++ (if !joins.isEmpty then " " ++ String.intercalate " " joins else "")
        ++ (if !conditions.isEmpty then " WHERE " ++ String.intercalate " AND " conditions
            else "")
        ++ "") := rfl

/-- The analysis produced for the input `"show tallest customers"`, in which
`all` occurs only inside the word `tallest`. -/
def tallAnalysis : QueryAnalysis :=
  ⟨"show tallest customers", "list", [], [], none, 1/2⟩

/-- C6, counterexample: for the input `"show tallest customers"` the literal
word `all` does not appear among the whitespace-separated words, yet the
synthesized `list`-intent statement carries no trailing ` LIMIT 10`, because
the source tests `'all' in query.lower()` — a substring test that `tallest`
satisfies.  This refutes the claim as stated (word-level reading). -/
theorem c6_limit_word_counterexample :
    "all" ∉ pySplitWords (pyLower "show tallest customers") ∧
    ¬ (" LIMIT 10".data <:+
      (construct_sql ocSchema "list" ["customers"] [] [] [] tallAnalysis).data) := by
  constructor
  · decide
  · decide

/-- C6, amended: for a synthesis over a nonempty table list with final intent
`list`, the statement ends with ` LIMIT 10` unless the three-character
sequence `all` occurs anywhere in the lowered input text (a substring test,
not a word test); when it does occur, no LIMIT clause is appended — the
statement coincides with the `join`-intent synthesis, which never appends
one. -/
theorem c6_limit_substring_amended :
    ∀ (s : DbSchema) (tables columns joins conditions : List String)
      (analysis : QueryAnalysis),
      tables ≠ [] →
      (containsSubL "all".data (pyLowerL analysis.original_query.data) = false →
        " LIMIT 10".data <:+
          (construct_sql s "list" tables columns joins conditions analysis).data) ∧
      (containsSubL "all".data (pyLowerL analysis.original_query.data) = true →
        construct_sql s "list" tables columns joins conditions analysis =
          construct_sql s "join" tables columns joins conditions analysis) := by
  intro s tables columns joins conditions analysis hne
  cases tables with
  | nil => exact absurd rfl hne
  | cons t ts =>
    constructor
    · intro hall
      have hcond : ("list" : String) = "list" ∧
          containsSubL "all".data (pyLowerL analysis.original_query.data) = false :=
        ⟨rfl, hall⟩
      rw [construct_sql_list_eq, if_pos hcond]
      apply suffix_stripList_limit (c := 'S') (by decide)
      by_cases hcols : columns.isEmpty
      · rw [if_neg (by simp [hcols])]
        exact data_append_head (data_append_head (data_append_head
          (data_append_head (data_append_head (select_head t) _) _) _) _) _
      · rw [if_pos (by simp [hcols])]
        exact data_append_head (data_append_head (data_append_head
          (data_append_head (select_head _) _) _) _) _
    · intro hall
      have hcond : ¬ (("list" : String) = "list" ∧
          containsSubL "all".data (pyLowerL analysis.original_query.data) = false) := by
        intro hcon
        exact absurd hcon.2 (by simp [hall])
      rw [construct_sql_list_eq, construct_sql_join_eq, if_neg hcond]

theorem c6_limit_substring_amended_witness :
    " LIMIT 10".data <:+
      (construct_sql ocSchema "list" ["customers"] [] [] []
        ⟨"show customers", "list", [], [], none, 1/2⟩).data :=
  (c6_limit_substring_amended ocSchema ["customers"] [] [] []
    ⟨"show customers", "list", [], [], none, 1/2⟩ (by decide)).1 (by decide)

/-! ## C7: derived table aliases -/

/-- C7, counterexample: `tbl_data` has a `tbl_` prefix and cleaned form
`data`, but its derived alias set is empty: `_detect_table_aliases` never adds
the cleaned form itself, only its 4-character abbreviation (when the cleaned
name is longer than four characters), word initials, and business-domain
synonyms.  This refutes the claim as stated. -/
theorem c7_alias_counterexample :
    "tbl_".data.isPrefixOf (pyLower "tbl_data").data = true ∧
    "data" ∉ detect_table_aliases "tbl_data" := by
  constructor
  · decide
  · decide

/-- C7, amended: for every table name with a `tbl_` prefix or `_table` suffix
whose cleaned form is longer than four characters (and splits into nonempty
words, the case in which Python's initial-letter join does not raise
`IndexError`), the derived alias set contains the first four characters of
the cleaned form; the cleaned form itself need not be present. -/
theorem c7_alias_amended :
    ∀ table : String,
      ("tbl_".data.isPrefixOf (pyLower table).data = true ∨
        "_table".data.isSuffixOf (pyLower table).data = true) →
      4 < (cleanName table).length →
      (∀ w ∈ splitOnRuns isUnderscoreOrSpace (cleanName table), w ≠ []) →
      ((cleanName table).take 4).asString ∈ detect_table_aliases table := by
  intro table _ hlen _
  simp only [detect_table_aliases]
  apply List.mem_dedup.mpr
  apply List.mem_append_left
  rw [if_pos hlen]
  exact List.mem_append_left _ (by simp)

theorem c7_alias_amended_witness :
    ((cleanName "tbl_customers").take 4).asString ∈
      detect_table_aliases "tbl_customers" :=
  c7_alias_amended "tbl_customers" (Or.inl (by decide)) (by decide) (by decide)

/-! ## C8: the join resolver -/

theorem prefix_data_append {X B : String} {p : List Char} (h : p <+: X.data) :
    p <+: (X ++ B).data := by
  rw [String.data_append]
  exact h.trans (List.prefix_append _ _)

theorem leftjoin_prefix_base (B : String) :
    "LEFT JOIN ".data <+: ("LEFT JOIN " ++ B).data := by
  rw [String.data_append]
  exact List.prefix_append _ _

theorem joinClauseOfEdge_prefix (main table : String) (d : EdgeData) :
    ∀ x ∈ joinClauseOfEdge main table d, "LEFT JOIN ".data <+: x.data := by
  unfold joinClauseOfEdge
  split
  · intro x hx
    rw [List.mem_singleton.mp hx]
    exact prefix_data_append (prefix_data_append (prefix_data_append
      (prefix_data_append (prefix_data_append (prefix_data_append
        (prefix_data_append (prefix_data_append (leftjoin_prefix_base table))))))))
  · intro x hx
    simp at hx

theorem indirectHopClause_prefix (path : List String) (hops : List PathHop)
    {js : List String} (j : Nat)
    (h : ∀ x ∈ js, "LEFT JOIN ".data <+: x.data) :
    ∀ x ∈ indirectHopClause path hops js j, "LEFT JOIN ".data <+: x.data := by
  simp only [indirectHopClause]
  split
  · split
    · intro x hx
      rcases List.mem_append.mp hx with hx | hx
      · exact h x hx
      · rw [List.mem_singleton.mp hx]
        exact prefix_data_append (prefix_data_append (prefix_data_append
          (prefix_data_append (prefix_data_append (prefix_data_append
            (prefix_data_append (prefix_data_append (leftjoin_prefix_base _))))))))
    · exact h
  · exact h

theorem buildJoinsStep_prefix {g : RelGraph} {main : String}
    {joins : List String} (table : String)
    (h : ∀ x ∈ joins, "LEFT JOIN ".data <+: x.data) :
    ∀ x ∈ buildJoinsStep g main joins table, "LEFT JOIN ".data <+: x.data := by
  unfold buildJoinsStep
  split
  · exact h
  · split
    · split
      · intro x hx
        rcases List.mem_append.mp hx with hx | hx
        · exact h x hx
        · exact joinClauseOfEdge_prefix _ _ _ x hx
      · exact h
    · split
      · split
        · exact foldl_preserve
            (P := fun (l : List String) => ∀ x ∈ l, "LEFT JOIN ".data <+: x.data)
            (fun js jdx hjs => indirectHopClause_prefix _ _ jdx hjs) _ joins h
        · exact h
      · exact h

/-- C8: a table list with zero or one entry yields an empty join plan; every
clause the resolver ever emits begins with `LEFT JOIN ` (a left-outer join);
and over the `orders`/`customers` graph with the inferred
(`customer_id`, `id`) edge, resolving `["orders", "customers"]` yields exactly
the one left-outer join step on that column pair. -/
theorem c8_join_resolver :
    ∀ (g : RelGraph) (tables : List String),
      (tables.length ≤ 1 → build_joins g tables = []) ∧
      (∀ j ∈ build_joins g tables, "LEFT JOIN ".data <+: j.data) ∧
      build_joins (build_relationship_graph ocSchema) ["orders", "customers"] =
        ["LEFT JOIN customers ON orders.customer_id = customers.id"] := by
  intro g tables
  refine ⟨?_, ?_, by decide⟩
  · intro hle
    unfold build_joins
    rw [if_pos hle]
  · unfold build_joins
    by_cases hle : tables.length ≤ 1
    · rw [if_pos hle]
      simp
    · rw [if_neg hle]
      exact foldl_preserve
        (P := fun (l : List String) => ∀ x ∈ l, "LEFT JOIN ".data <+: x.data)
        (fun js table hjs => buildJoinsStep_prefix table hjs)
        (tables.drop 1) [] (by simp)

theorem c8_join_resolver_witness :
    build_joins (build_relationship_graph ocSchema) ["orders"] = [] :=
  (c8_join_resolver (build_relationship_graph ocSchema) ["orders"]).1 (by decide)

/-! ## C9: the ten-column projection cap -/

/-- C9: for every analysis and nonempty table list, the projected column list
produced by column extraction holds at most ten entries (`columns[:10]` drops
the rest silently). -/
theorem c9_column_cap :
    ∀ (s : DbSchema) (analysis : QueryAnalysis) (tables : List String),
      tables ≠ [] → (extract_columns s analysis tables).length ≤ 10 := by
  intro s analysis tables _
  simp only [extract_columns]
  exact List.length_take_le _ _

theorem c9_column_cap_witness :
    (extract_columns ocSchema ⟨"show customers", "list", [], [], none, 1/2⟩
      ["customers"]).length ≤ 10 :=
  c9_column_cap ocSchema ⟨"show customers", "list", [], [], none, 1/2⟩
    ["customers"] (by decide)

/-! ## C10: the indirect related-tables list is not deduplicated -/

/-- C10: on the diamond graph `a–b`, `a–c`, `b–d`, `c–d`, the table `d` — a
neighbor of both direct neighbors `b` and `c` of `a`, itself neither the
origin nor a direct neighbor — appears twice in the indirect list returned by
`get_related_tables` with depth 2. -/
theorem c10_indirect_duplicates :
    1 < ((get_related_tables (build_relationship_graph diamondSchema) "a" 2).2.count
      "d") ∧
    "d" ∉ (get_related_tables (build_relationship_graph diamondSchema) "a" 2).1 ∧
    "d" ≠ "a" := by
  refine ⟨by decide, by decide, by decide⟩
